import Mathlib

/-!
Verification of the tag-history-and-mutation engine of
`src/taggui/models/image_list_model.py`.

Strings are modelled as `List Char` (`Str`).  A record (`Rec`) models the
`Image` dataclass restricted to the fields the engine touches: its `path`
and its mutable ordered tag list.  `State` models the `ImageListModel`
fields relevant to the claims (`separator`, `images`, `undo_stack`,
`redo_stack`) together with observable effect logs: successful sidecar
writes (`disk`), error reports (`errors`) and `dataChanged` range
notifications (`notifs`).  Disk writes are keyed by the record's path; the
`with_suffix('.txt')` sidecar-path derivation is kept abstract.  An I/O
failure oracle `fail : Str → Bool` says which paths raise `OSError` on
write.
-/

set_option autoImplicit false

abbrev Str := List Char

/-- The constant `UNDO_STACK_SIZE = 32` (line 16 of the source). -/
def UNDO_STACK_SIZE : Nat := 32

structure Rec where
  path : Str
  tags : List Str
  deriving DecidableEq, Repr

/-- The `HistoryItem` dataclass: action name, full-catalog tag snapshot,
confirmation flag. -/
structure HistoryItem where
  name : Str
  tags : List (List Str)
  confirm : Bool
  deriving DecidableEq, Repr

instance : Inhabited HistoryItem := ⟨⟨[], [], false⟩⟩

/-- The model state.  The undo stack is a `deque(maxlen=32)` with its top at
the END of the list; the redo stack is an unbounded Python list, top at the
end. -/
structure State where
  sep : Str
  recs : List Rec
  undo : List HistoryItem
  redo : List HistoryItem
  disk : List (Str × Str)
  errors : List Str
  notifs : List (Nat × Nat)
  deriving DecidableEq, Repr

/-- Python `deque.append` on a deque with `maxlen = 32`: appending to a full deque
evicts the oldest (leftmost) entry. -/
def pushCap {α : Type} (xs : List α) (x : α) : List α :=
  if xs.length < UNDO_STACK_SIZE then xs ++ [x] else xs.tail ++ [x]

/-- Python `self.separator.join(tags)`. -/
def joinTags (sep : Str) (tags : List Str) : Str :=
  List.intercalate sep tags

/-- The error message produced by `write_image_tags_to_disk` on `OSError`:
`f'Failed to save tags for {image.path}.'`. -/
def errMsg (p : Str) : Str :=
  "Failed to save tags for ".toList ++ p ++ ".".toList

/-- The per-catalog tag values of a state. -/
def tagsOf (s : State) : List (List Str) :=
  s.recs.map Rec.tags

/-- Method `add_to_undo_stack`: push a value copy of every record's tag list onto the
undo deque, clear the redo stack. -/
def addToUndoStack (name : Str) (conf : Bool) (s : State) : State :=
  { s with undo := pushCap s.undo ⟨name, s.recs.map Rec.tags, conf⟩, redo := [] }

/-- The sequence of `write_image_tags_to_disk` calls a bulk operation performs:
one attempt per changed index, in order, each either appending a successful
write (path, separator-joined tags) or an error report; a failure does not
stop the remaining writes. -/
def runWrites (fail : Str → Bool) (sep : Str) (recs : List Rec)
    (changed : List Nat) (disk : List (Str × Str)) (errs : List Str) :
    List (Str × Str) × List Str :=
  changed.foldl
    (fun acc i =>
      match recs.get? i with
      | none => acc
      | some r =>
        if fail r.path then (acc.1, acc.2 ++ [errMsg r.path])
        else (acc.1 ++ [(r.path, joinTags sep r.tags)], acc.2))
    (disk, errs)

/-- The `dataChanged` emission at the end of a bulk loop: nothing when no index
changed, otherwise the single range from the first to the last changed index. -/
def notifOf (changed : List Nat) : List (Nat × Nat) :=
  match changed with
  | [] => []
  | c :: cs => [(c, cs.getLastD c)]

/-! ## Caption string primitives

Embeddings of the Python `str` operations the engine uses on captions:
`find_text in caption`, `caption.replace(find, repl)` (leftmost,
non-overlapping, all occurrences) and `caption.split(sep)` for a non-empty
separator. -/

/-- Python `pat in s` (substring containment). -/
def occurs (pat : Str) : Str → Bool
  | [] => pat.isPrefixOf []
  | c :: rest => pat.isPrefixOf (c :: rest) || occurs pat rest

/-- Worker for `s.replace(pat, rep)`.  The scan consumes at least one
character of `s` per step, so running it with `s.length` units of fuel is
exact; the fuel only makes the recursion structural. -/
def replaceAllGo (pat rep : Str) : Nat → Str → Str
  | 0, s => s
  | fuel + 1, s =>
    if pat ≠ [] ∧ pat.isPrefixOf s = true then
      rep ++ replaceAllGo pat rep fuel (s.drop pat.length)
    else
      match s with
      | [] => []
      | c :: rest => c :: replaceAllGo pat rep fuel rest

/-- Python `s.replace(pat, rep)`: replace every leftmost non-overlapping occurrence
of `pat` (non-empty in every use site) by `rep`. -/
def replaceAll (pat rep : Str) (s : Str) : Str :=
  replaceAllGo pat rep s.length s

/-- Worker for `s.split(sep)` with non-empty `sep`: `cur` is the piece read
so far, the fuel (run with `s.length`, consumed at least one per step) makes
the recursion structural. -/
def splitOnGo (sep : Str) : Nat → Str → Str → List Str
  | 0, _, cur => [cur]
  | fuel + 1, s, cur =>
    if sep ≠ [] ∧ sep.isPrefixOf s = true then
      cur :: splitOnGo sep fuel (s.drop sep.length) []
    else
      match s with
      | [] => [cur]
      | c :: rest => splitOnGo sep fuel rest (cur ++ [c])

/-- Python `caption.split(separator)` (semantics for a non-empty separator). -/
def splitOnStr (sep s : Str) : List Str :=
  splitOnGo sep s.length s []

/-- Lexicographic (code-point) comparison, the order Python uses to sort
strings. -/
def strLe : Str → Str → Bool
  | [], _ => true
  | _ :: _, [] => false
  | a :: as, b :: bs => if a = b then strLe as bs else decide (a < b)

/-- Stable insertion used by `stableSort`: an element is placed before the
first existing element it is strictly smaller than. -/
def stableInsert {α : Type} (le : α → α → Bool) (x : α) : List α → List α
  | [] => [x]
  | y :: ys => if le x y && !le y x then x :: y :: ys else y :: stableInsert le x ys

/-- Embedding of Python's stable `list.sort` / `sorted` for the total
preorder `le`: any stable sort produces the same list, so a stable insertion
sort is a faithful model of Timsort's result. -/
def stableSort {α : Type} (le : α → α → Bool) (xs : List α) : List α :=
  xs.foldl (fun acc x => stableInsert le x acc) []

/-- Descending-by-count comparison used by `sort_tags_by_frequency`
(`key=lambda tag: tag_counter[tag], reverse=True`). -/
def freqLe (counter : Str → Nat) (a b : Str) : Bool :=
  decide (counter b ≤ counter a)

/-! ## Per-record transforms of the bulk mutation operations

Each `...Step` function is the body of the corresponding Python loop over
`enumerate(self.images)`: it returns the record after the iteration together
with the flag saying whether the iteration appended the index to
`changed_image_indices` (and therefore wrote the record to disk). -/

/-- Loop body of `rename_tag`. -/
def renameStep (old new : Str) (filt : Bool) (vis : Rec → Bool) (_sep : Str)
    (r : Rec) : Rec × Bool :=
  if filt && !vis r then (r, false)
  else if r.tags.contains old then
    ({ r with tags := r.tags.map (fun t => if t = old then new else t) }, true)
  else (r, false)

/-- Loop body of `delete_tag`. -/
def deleteStep (tag : Str) (filt : Bool) (vis : Rec → Bool) (_sep : Str)
    (r : Rec) : Rec × Bool :=
  if filt && !vis r then (r, false)
  else if r.tags.contains tag then
    ({ r with tags := r.tags.filter (fun t => !(t == tag)) }, true)
  else (r, false)

/-- Loop body of `sort_tags_alphabetically`: records with fewer than two tags
are skipped; otherwise the tags are sorted (whole list, or all but the first)
and the index counts as changed exactly when the serialized caption differs. -/
def sortAlphaStep (keep : Bool) (sep : Str) (r : Rec) : Rec × Bool :=
  if r.tags.length < 2 then (r, false)
  else
    let oldCap := joinTags sep r.tags
    let newTags :=
      if keep then
        match r.tags with
        | [] => []
        | t :: ts => t :: stableSort strLe ts
      else stableSort strLe r.tags
    ({ r with tags := newTags }, !(joinTags sep newTags == oldCap))

/-- Loop body of `sort_tags_by_frequency` (stable descending sort by the
supplied counter). -/
def sortFreqStep (counter : Str → Nat) (keep : Bool) (sep : Str) (r : Rec) :
    Rec × Bool :=
  if r.tags.length < 2 then (r, false)
  else
    let oldCap := joinTags sep r.tags
    let newTags :=
      if keep then
        match r.tags with
        | [] => []
        | t :: ts => t :: stableSort (freqLe counter) ts
      else stableSort (freqLe counter) r.tags
    ({ r with tags := newTags }, !(joinTags sep newTags == oldCap))

/-- Loop body of `shuffle_tags`: the random permutation is supplied as the
function `shuf`; every record with at least two tags counts as changed, the
before/after content is never compared. -/
def shuffleStep (keep : Bool) (shuf : List Str → List Str) (_sep : Str)
    (r : Rec) : Rec × Bool :=
  if r.tags.length < 2 then (r, false)
  else if keep then
    match r.tags with
    | [] => (r, true)
    | t :: ts => ({ r with tags := t :: shuf ts }, true)
  else ({ r with tags := shuf r.tags }, true)

/-- Worker for `list(dict.fromkeys(tags))`: `seen` holds the keys already
emitted. -/
def dedupGo (seen : List Str) : List Str → List Str
  | [] => []
  | t :: ts => if seen.contains t then dedupGo seen ts else t :: dedupGo (seen ++ [t]) ts

/-- Python `list(dict.fromkeys(tags))`: keep the first occurrence of each tag, in
order. -/
def dedupKeepFirst (ts : List Str) : List Str :=
  dedupGo [] ts

/-- Loop body of `remove_duplicate_tags`: a record counts as changed when its
tag count exceeds its distinct-tag count. -/
def dedupStep (_sep : Str) (r : Rec) : Rec × Bool :=
  if r.tags.length = (dedupKeepFirst r.tags).length then (r, false)
  else ({ r with tags := dedupKeepFirst r.tags }, true)

/-- Python `tag.strip()` truthiness: a tag survives `remove_empty_tags` iff it has a
non-whitespace character. -/
def keptByStrip (t : Str) : Bool :=
  t.any (fun c => !c.isWhitespace)

/-- Loop body of `remove_empty_tags`. -/
def removeEmptyStep (_sep : Str) (r : Rec) : Rec × Bool :=
  let newTags := r.tags.filter keptByStrip
  if r.tags.length = newTags.length then (r, false)
  else ({ r with tags := newTags }, true)

/-- Loop body of `find_and_replace` (for a non-empty find text): join the tags
into a caption, and when the caption contains the find text, replace every
occurrence and re-split on the separator. -/
def findReplaceStep (find repl : Str) (filt : Bool) (vis : Rec → Bool)
    (sep : Str) (r : Rec) : Rec × Bool :=
  if filt && !vis r then (r, false)
  else
    let cap := joinTags sep r.tags
    if occurs find cap then
      ({ r with tags := splitOnStr sep (replaceAll find repl cap) }, true)
    else (r, false)

/-! ## The bulk-operation template

All per-record operations share the shape of the Python loops: snapshot, one
pass computing the transformed records and the changed indices, a disk write
per changed index, one `dataChanged` range when anything changed. -/

/-- The transformed record list of one bulk pass. -/
def stepRecs (step : Str → Rec → Rec × Bool) (sep : Str) (recs : List Rec) :
    List Rec :=
  recs.map (fun r => (step sep r).1)

/-- The list `changed_image_indices` of one bulk pass, mirroring
`for image_index, image in enumerate(self.images)` starting at index `k`. -/
def stepChangedGo (step : Str → Rec → Rec × Bool) (sep : Str) :
    Nat → List Rec → List Nat
  | _, [] => []
  | k, r :: rs =>
    if (step sep r).2 then k :: stepChangedGo step sep (k + 1) rs
    else stepChangedGo step sep (k + 1) rs

/-- The list `changed_image_indices` of one bulk pass. -/
def stepChanged (step : Str → Rec → Rec × Bool) (sep : Str)
    (recs : List Rec) : List Nat :=
  stepChangedGo step sep 0 recs

/-- The uniform template of the per-record bulk operations: push a snapshot,
transform, persist each changed record, notify the changed range. -/
def bulkStepRun (fail : Str → Bool) (name : Str) (conf : Bool)
    (step : Str → Rec → Rec × Bool) (s : State) : State :=
  let s1 := addToUndoStack name conf s
  let recs' := stepRecs step s1.sep s1.recs
  let changed := stepChanged step s1.sep s1.recs
  let de := runWrites fail s1.sep recs' changed s1.disk s1.errors
  { s1 with
    recs := recs',
    disk := de.1,
    errors := de.2,
    notifs := s1.notifs ++ notifOf changed }

/-- The action name `add_tags` uses: `'Add Tag'` for a single tag, `'Add
Tags'` otherwise. -/
def addName (ts : List Str) : Str :=
  if ts.length = 1 then "Add Tag".toList else "Add Tags".toList

/-- One iteration of the `add_tags` loop at target index `i`: append the tags
not already present, then attempt the disk write. -/
def addTagsIter (fail : Str → Bool) (ts : List Str) (st : State) (i : Nat) :
    State :=
  match st.recs.get? i with
  | none => st
  | some r =>
    let r' := { r with tags := r.tags ++ ts.filter (fun t => !(r.tags.contains t)) }
    let recs' := st.recs.set i r'
    if fail r'.path then { st with recs := recs', errors := st.errors ++ [errMsg r'.path] }
    else { st with recs := recs', disk := st.disk ++ [(r'.path, joinTags st.sep r'.tags)] }

/-- Method `add_tags`: snapshot (confirmation only for more than one target), loop
over the targets, then notify the `[min row, max row]` range.  With an empty
target list the final `min(image_indices, ...)` raises `ValueError`: the
returned flag records that the call raised, and the state is the one left
behind at the raise (snapshot pushed, redo cleared, nothing else). -/
def addTagsRun (fail : Str → Bool) (ts : List Str) (idxs : List Nat)
    (s : State) : State × Bool :=
  let s1 := addToUndoStack (addName ts) (decide (idxs.length > 1)) s
  let s2 := idxs.foldl (addTagsIter fail ts) s1
  match idxs with
  | [] => (s2, true)
  | i :: rest =>
    ({ s2 with notifs := s2.notifs ++ [(rest.foldl Nat.min i, rest.foldl Nat.max i)] },
     false)

/-! ## The operation family -/

/-- The bulk mutation operations.  External collaborators appear as
parameters: the filtered-view membership predicate `vis`, the caller-supplied
frequency counter, and the outcome `shuf` of `random.shuffle`. -/
inductive Op where
  | rename (old new : Str) (filt : Bool) (vis : Rec → Bool)
  | delete (tag : Str) (filt : Bool) (vis : Rec → Bool)
  | addTags (ts : List Str) (idxs : List Nat)
  | sortAlpha (keep : Bool)
  | sortFreq (counter : Str → Nat) (keep : Bool)
  | shuffle (keep : Bool) (shuf : List Str → List Str)
  | dedup
  | removeEmpty
  | findReplace (find repl : Str) (filt : Bool) (vis : Rec → Bool)

/-- Run one operation; the boolean records whether the call raised
(only `add_tags` with an empty target list does). -/
def applyOpRes (fail : Str → Bool) (o : Op) (s : State) : State × Bool :=
  match o with
  | .rename old new filt vis =>
    (bulkStepRun fail "Rename Tag".toList true (renameStep old new filt vis) s, false)
  | .delete tag filt vis =>
    (bulkStepRun fail "Delete Tag".toList true (deleteStep tag filt vis) s, false)
  | .addTags ts idxs => addTagsRun fail ts idxs s
  | .sortAlpha keep =>
    (bulkStepRun fail "Sort Tags".toList true (sortAlphaStep keep) s, false)
  | .sortFreq counter keep =>
    (bulkStepRun fail "Sort Tags".toList true (sortFreqStep counter keep) s, false)
  | .shuffle keep shuf =>
    (bulkStepRun fail "Shuffle Tags".toList true (shuffleStep keep shuf) s, false)
  | .dedup =>
    (bulkStepRun fail "Remove Duplicate Tags".toList true dedupStep s, false)
  | .removeEmpty =>
    (bulkStepRun fail "Remove Empty Tags".toList true removeEmptyStep s, false)
  | .findReplace find repl filt vis =>
    if find.isEmpty then (s, false)
    else (bulkStepRun fail "Find and Replace".toList true
            (findReplaceStep find repl filt vis) s, false)

/-- The state after running one operation. -/
def applyOp (fail : Str → Bool) (o : Op) (s : State) : State :=
  (applyOpRes fail o s).1

/-- Run a sequence of operations. -/
def applyOps (fail : Str → Bool) (ops : List Op) (s : State) : State :=
  ops.foldl (fun s o => applyOp fail o s) s

/-- Operations that push a history snapshot (all of them except
`find_and_replace` with an empty find text, which returns before the
snapshot). -/
def realOp : Op → Bool
  | .findReplace find _ _ _ => !find.isEmpty
  | _ => true

/-- Number of snapshots a sequence of operations pushes. -/
def realCount (ops : List Op) : Nat :=
  ops.countP realOp

/-- Domain condition under which the model is faithful to the Python code: an
`add_tags` call must target at least one existing row (an empty target list
raises; an out-of-range row would raise `IndexError`). -/
def ValidOp (n : Nat) : Op → Prop
  | .addTags _ idxs => idxs ≠ [] ∧ ∀ i ∈ idxs, i < n
  | _ => True

/-! ## Undo / redo -/

/-- The indices `restore_history_tags` collects into
`changed_image_indices`: positions where the live tags differ from the
snapshot (`zip` truncates to the shorter list). -/
def restoreChangedGo : Nat → List Rec → List (List Str) → List Nat
  | _, [], _ => []
  | _, _, [] => []
  | k, r :: rs, t :: ts =>
    if r.tags == t then restoreChangedGo (k + 1) rs ts
    else k :: restoreChangedGo (k + 1) rs ts

/-- Changed indices of a restore. -/
def restoreChanged (recs : List Rec) (ts : List (List Str)) : List Nat :=
  restoreChangedGo 0 recs ts

/-- The record list after a restore: positions covered by the snapshot take
the snapshot value (assignment skipped when equal, which leaves the same
value), the rest keep their tags. -/
def restoreRecs (recs : List Rec) (ts : List (List Str)) : List Rec :=
  (recs.zip ts).map (fun p => if p.1.tags == p.2 then p.1 else { p.1 with tags := p.2 })
    ++ recs.drop ts.length

/-- Method `restore_history_tags`: `isUndo` selects the source/destination stacks,
`reply` is the answer of the confirmation dialog collaborator.  On the
proceed path the popped snapshot's values are restored, the current state is
pushed (same action name and confirmation flag) onto the destination stack,
each changed record is written to disk and the changed range is notified. -/
def restoreHistory (fail : Str → Bool) (isUndo : Bool) (reply : Bool)
    (s : State) : State :=
  let src := if isUndo then s.undo else s.redo
  match src.getLast? with
  | none => s
  | some item =>
    if item.confirm && !reply then s
    else
      let snap : HistoryItem := ⟨item.name, s.recs.map Rec.tags, item.confirm⟩
      let changed := restoreChanged s.recs item.tags
      let recs' := restoreRecs s.recs item.tags
      let de := runWrites fail s.sep recs' changed s.disk s.errors
      { s with
        recs := recs',
        undo := if isUndo then s.undo.dropLast else pushCap s.undo snap,
        redo := if isUndo then s.redo ++ [snap] else s.redo.dropLast,
        disk := de.1, errors := de.2,
        notifs := s.notifs ++ notifOf changed }

/-- Calling `undo()` `n` times with every confirmation approved. -/
def undoN (fail : Str → Bool) : Nat → State → State
  | 0, s => s
  | n + 1, s => undoN fail n (restoreHistory fail true true s)

/-- The all-writes-succeed I/O oracle. -/
def noFail : Str → Bool := fun _ => false

/-- A one-record catalog in the freshly loaded state, used by witnesses. -/
def demoState : State :=
  { sep := ", ".toList
    recs := [⟨"p".toList, [['b'], ['a']]⟩]
    undo := []
    redo := []
    disk := []
    errors := []
    notifs := [] }

/-! ## Action traces

For invariants over arbitrary interleavings of mutations, undos and redos,
an action is one user-visible call.  The ghost flag carried next to the
state records whether a successful (confirmed) undo happened since the last
snapshot push. -/

/-- One user-visible history-relevant call. -/
inductive Act where
  | mutA (o : Op)
  | undoA (reply : Bool)
  | redoA (reply : Bool)

/-- Whether an `undo()` call with dialog answer `reply` reaches the pop:
the source stack is non-empty and the confirmation (when required) is
approved. -/
def undoSucceeds (reply : Bool) (s : State) : Bool :=
  match s.undo.getLast? with
  | none => false
  | some item => !(item.confirm && !reply)

/-- Execute one action; the ghost flag is set by a successful undo and
cleared by any snapshot-pushing mutation. -/
def execAct (fail : Str → Bool) (p : State × Bool) (a : Act) : State × Bool :=
  match a with
  | .mutA o => (applyOp fail o p.1, if realOp o then false else p.2)
  | .undoA reply =>
    (restoreHistory fail true reply p.1, if undoSucceeds reply p.1 then true else p.2)
  | .redoA reply => (restoreHistory fail false reply p.1, p.2)

/-- Execute a list of actions from a state and ghost flag. -/
def execTrace (fail : Str → Bool) (acts : List Act) (p : State × Bool) :
    State × Bool :=
  acts.foldl (execAct fail) p

/-! ## The pointer-level (heap) model

The value model above cannot talk about object identity, but the claim about
deep copies versus reference captures is precisely about identity.  `HState`
models the Python object graph: each live tag *list object* is a heap cell,
a record holds the address of its cell, and a `HistoryItem` holds a list of
addresses.  `image.tags.copy()` allocates fresh cells; `image.tags = other`
re-points a reference; `list.sort()` / `list.extend()` mutate the cell in
place.  Only the operations the aliasing claims need are modelled
(`add_to_undo_stack`, `restore_history_tags`, `sort_tags_alphabetically`,
`add_tags`); paths, disk writes and notifications are irrelevant to object
identity and are omitted. -/

/-- A history item at the pointer level: the snapshot is a list of cell
addresses. -/
structure HItem where
  name : Str
  addrs : List Nat
  confirm : Bool
  deriving DecidableEq, Repr

/-- Pointer-level model state: `refs` holds each record's tag-list address,
`heap` the cells. -/
structure HState where
  refs : List Nat
  undoS : List HItem
  redoS : List HItem
  heap : List (List Str)
  deriving DecidableEq, Repr

/-- Dereference a cell. -/
def heapVal (heap : List (List Str)) (a : Nat) : List Str :=
  heap.getD a []

/-- Method `add_to_undo_stack` at the pointer level: `image.tags.copy()` allocates
one fresh cell per record and the pushed item references only these fresh
cells; the redo stack is cleared. -/
def addToUndoStackH (name : Str) (conf : Bool) (s : HState) : HState :=
  { refs := s.refs
    undoS := pushCap s.undoS
      ⟨name, (List.range s.refs.length).map (fun k => k + s.heap.length), conf⟩
    redoS := []
    heap := s.heap ++ s.refs.map (heapVal s.heap) }

/-- Method `restore_history_tags` at the pointer level.  Line 176 of the source
(`tags = [image.tags for image in self.images]`) captures the live cell
addresses themselves, so the destination item is built from `s.refs` without
any allocation; restoring assigns `image.tags = history_image_tags`, a
re-pointing, and only at positions whose values differ. -/
def restoreHistoryH (isUndo : Bool) (reply : Bool) (s : HState) : HState :=
  let src := if isUndo then s.undoS else s.redoS
  match src.getLast? with
  | none => s
  | some item =>
    if item.confirm && !reply then s
    else
      let snap : HItem := ⟨item.name, s.refs, item.confirm⟩
      let refs' :=
        (s.refs.zip item.addrs).map
          (fun p => if heapVal s.heap p.1 == heapVal s.heap p.2 then p.1 else p.2)
          ++ s.refs.drop item.addrs.length
      { refs := refs'
        undoS := if isUndo then s.undoS.dropLast else pushCap s.undoS snap
        redoS := if isUndo then s.redoS ++ [snap] else s.redoS.dropLast
        heap := s.heap }

/-- One iteration of the pointer-level `sort_tags_alphabetically` loop at
record position `i`: `image.tags.sort()` mutates the cell in place, while the
first-tag-fixed branch assigns a freshly allocated list. -/
def sortAlphaIterH (keep : Bool) (s : HState) (i : Nat) : HState :=
  match s.refs.get? i with
  | none => s
  | some r =>
    let cell := heapVal s.heap r
    if cell.length < 2 then s
    else if keep then
      match cell with
      | [] => s
      | t :: ts =>
        { s with
          refs := s.refs.set i s.heap.length,
          heap := s.heap ++ [t :: stableSort strLe ts] }
    else { s with heap := s.heap.set r (stableSort strLe cell) }

/-- Pointer-level `sort_tags_alphabetically`. -/
def sortAlphaH (keep : Bool) (s : HState) : HState :=
  let s1 := addToUndoStackH "Sort Tags".toList true s
  (List.range s1.refs.length).foldl (sortAlphaIterH keep) s1

/-- One iteration of the pointer-level `add_tags` loop: `image.tags.extend`
mutates the record's cell in place. -/
def addTagsIterH (ts : List Str) (s : HState) (i : Nat) : HState :=
  match s.refs.get? i with
  | none => s
  | some r =>
    let cell := heapVal s.heap r
    { s with heap := s.heap.set r (cell ++ ts.filter (fun t => !(cell.contains t))) }

/-- Pointer-level `add_tags` (the raising empty-target case is irrelevant
here). -/
def addTagsH (ts : List Str) (idxs : List Nat) (s : HState) : HState :=
  let s1 := addToUndoStackH (addName ts) (decide (idxs.length > 1)) s
  idxs.foldl (addTagsIterH ts) s1

/-! ## Helper lemmas: the bounded stack -/

theorem pushCap_of_lt {α : Type} {xs : List α} (x : α)
    (h : xs.length < UNDO_STACK_SIZE) : pushCap xs x = xs ++ [x] := by
  simp [pushCap, h]

theorem pushCap_getLast? {α : Type} (xs : List α) (x : α) :
    (pushCap xs x).getLast? = some x := by
  unfold pushCap
  split <;> exact List.getLast?_concat _

theorem pushCap_length_le {α : Type} {xs : List α} (x : α)
    (h : xs.length ≤ UNDO_STACK_SIZE) :
    (pushCap xs x).length ≤ UNDO_STACK_SIZE := by
  unfold pushCap
  split <;> rename_i h'
  · simpa using h'
  · cases xs with
    | nil => simp [UNDO_STACK_SIZE] at h'
    | cons y ys => simpa using h

/-! ## Helper lemmas: the write loop -/

/-- The successful entry `write_image_tags_to_disk` appends for record `r`,
when the oracle lets the write through. -/
def writeOk (fail : Str → Bool) (sep : Str) (r : Rec) : Option (Str × Str) :=
  if fail r.path then none else some (r.path, joinTags sep r.tags)

/-- The error report of a failing write. -/
def writeErr (fail : Str → Bool) (r : Rec) : Option Str :=
  if fail r.path then some (errMsg r.path) else none

theorem runWrites_eq (fail : Str → Bool) (sep : Str) (recs : List Rec) :
    ∀ (changed : List Nat) (d : List (Str × Str)) (e : List Str),
      runWrites fail sep recs changed d e =
        (d ++ changed.filterMap (fun i => (recs.get? i).bind (writeOk fail sep)),
         e ++ changed.filterMap (fun i => (recs.get? i).bind (writeErr fail))) := by
  intro changed
  induction changed with
  | nil => intro d e; simp [runWrites]
  | cons i rest ih =>
    intro d e
    simp only [runWrites, List.foldl_cons] at ih ⊢
    simp only [List.filterMap_cons]
    cases hg : recs.get? i with
    | none => simpa [hg] using ih d e
    | some r =>
      by_cases hf : fail r.path
      · simpa [hg, hf, writeOk, writeErr] using ih d (e ++ [errMsg r.path])
      · simpa [hg, hf, writeOk, writeErr] using ih (d ++ [(r.path, joinTags sep r.tags)]) e

/-! ## Helper lemmas: decomposing `restore_history_tags` (undo, approved) -/

/-- One approved undo step at the level of the pair (records, undo stack):
everything `undo()` does to those two components. -/
def undoCoreStep (p : List Rec × List HistoryItem) :
    List Rec × List HistoryItem :=
  match p.2.getLast? with
  | none => p
  | some item => (restoreRecs p.1 item.tags, p.2.dropLast)

/-- Iterating `n` approved undo steps on the pair. -/
def undoCoreN : Nat → List Rec × List HistoryItem → List Rec × List HistoryItem
  | 0, p => p
  | n + 1, p => undoCoreN n (undoCoreStep p)

theorem restore_core (fail : Str → Bool) (s : State) :
    ((restoreHistory fail true true s).recs, (restoreHistory fail true true s).undo)
      = undoCoreStep (s.recs, s.undo) := by
  cases h : s.undo.getLast? with
  | none => simp [restoreHistory, undoCoreStep, h]
  | some item => simp [restoreHistory, undoCoreStep, h]

theorem restore_of_undo_nil (fail : Str → Bool) (reply : Bool) (s : State)
    (h : s.undo = []) : restoreHistory fail true reply s = s := by
  simp [restoreHistory, h]

theorem undoN_core (fail : Str → Bool) :
    ∀ (n : Nat) (s : State),
      ((undoN fail n s).recs, (undoN fail n s).undo)
        = undoCoreN n (s.recs, s.undo) := by
  intro n
  induction n with
  | zero => intro s; rfl
  | succ m ih =>
    intro s
    rw [undoN, undoCoreN, ← restore_core fail s]
    exact ih _

theorem undoN_succ_last (fail : Str → Bool) :
    ∀ (n : Nat) (s : State),
      undoN fail (n + 1) s = restoreHistory fail true true (undoN fail n s) := by
  intro n
  induction n with
  | zero => intro s; rfl
  | succ m ih =>
    intro s
    rw [undoN, ih, undoN]

/-! ## Helper lemmas: decomposing the operations -/

/-- Action name of each operation's snapshot. -/
def opNm : Op → Str
  | .rename .. => "Rename Tag".toList
  | .delete .. => "Delete Tag".toList
  | .addTags ts _ => addName ts
  | .sortAlpha _ => "Sort Tags".toList
  | .sortFreq .. => "Sort Tags".toList
  | .shuffle .. => "Shuffle Tags".toList
  | .dedup => "Remove Duplicate Tags".toList
  | .removeEmpty => "Remove Empty Tags".toList
  | .findReplace .. => "Find and Replace".toList

/-- Confirmation flag of each operation's snapshot. -/
def opCf : Op → Bool
  | .addTags _ idxs => decide (idxs.length > 1)
  | _ => true

/-- The record-list effect of one `add_tags` iteration, separated from the
I/O bookkeeping. -/
def addRecsIter (ts : List Str) (recs : List Rec) (i : Nat) : List Rec :=
  match recs.get? i with
  | none => recs
  | some r => recs.set i { r with tags := r.tags ++ ts.filter (fun t => !(r.tags.contains t)) }

/-- The record-list effect of each operation. -/
def opRecs (o : Op) (sep : Str) (recs : List Rec) : List Rec :=
  match o with
  | .rename old new filt vis => stepRecs (renameStep old new filt vis) sep recs
  | .delete tag filt vis => stepRecs (deleteStep tag filt vis) sep recs
  | .addTags ts idxs => idxs.foldl (addRecsIter ts) recs
  | .sortAlpha keep => stepRecs (sortAlphaStep keep) sep recs
  | .sortFreq counter keep => stepRecs (sortFreqStep counter keep) sep recs
  | .shuffle keep shuf => stepRecs (shuffleStep keep shuf) sep recs
  | .dedup => stepRecs dedupStep sep recs
  | .removeEmpty => stepRecs removeEmptyStep sep recs
  | .findReplace find repl filt vis =>
    if find.isEmpty then recs
    else stepRecs (findReplaceStep find repl filt vis) sep recs

theorem addTagsIter_sep (fail : Str → Bool) (ts : List Str) (st : State) (i : Nat) :
    (addTagsIter fail ts st i).sep = st.sep := by
  unfold addTagsIter
  cases h : st.recs.get? i with
  | none => simp [h]
  | some r => simp only [h]; split <;> rfl

theorem addTagsIter_undo (fail : Str → Bool) (ts : List Str) (st : State) (i : Nat) :
    (addTagsIter fail ts st i).undo = st.undo := by
  unfold addTagsIter
  cases h : st.recs.get? i with
  | none => simp [h]
  | some r => simp only [h]; split <;> rfl

theorem addTagsIter_redo (fail : Str → Bool) (ts : List Str) (st : State) (i : Nat) :
    (addTagsIter fail ts st i).redo = st.redo := by
  unfold addTagsIter
  cases h : st.recs.get? i with
  | none => simp [h]
  | some r => simp only [h]; split <;> rfl

theorem addTagsIter_notifs (fail : Str → Bool) (ts : List Str) (st : State) (i : Nat) :
    (addTagsIter fail ts st i).notifs = st.notifs := by
  unfold addTagsIter
  cases h : st.recs.get? i with
  | none => simp [h]
  | some r => simp only [h]; split <;> rfl

theorem addTagsFold_sep (fail : Str → Bool) (ts : List Str) :
    ∀ (idxs : List Nat) (st : State),
      (idxs.foldl (addTagsIter fail ts) st).sep = st.sep := by
  intro idxs
  induction idxs with
  | nil => intro st; rfl
  | cons i rest ih =>
    intro st
    simp only [List.foldl_cons]
    rw [ih, addTagsIter_sep]

theorem addTagsFold_undo (fail : Str → Bool) (ts : List Str) :
    ∀ (idxs : List Nat) (st : State),
      (idxs.foldl (addTagsIter fail ts) st).undo = st.undo := by
  intro idxs
  induction idxs with
  | nil => intro st; rfl
  | cons i rest ih =>
    intro st
    simp only [List.foldl_cons]
    rw [ih, addTagsIter_undo]

theorem addTagsFold_redo (fail : Str → Bool) (ts : List Str) :
    ∀ (idxs : List Nat) (st : State),
      (idxs.foldl (addTagsIter fail ts) st).redo = st.redo := by
  intro idxs
  induction idxs with
  | nil => intro st; rfl
  | cons i rest ih =>
    intro st
    simp only [List.foldl_cons]
    rw [ih, addTagsIter_redo]

theorem addTagsFold_notifs (fail : Str → Bool) (ts : List Str) :
    ∀ (idxs : List Nat) (st : State),
      (idxs.foldl (addTagsIter fail ts) st).notifs = st.notifs := by
  intro idxs
  induction idxs with
  | nil => intro st; rfl
  | cons i rest ih =>
    intro st
    simp only [List.foldl_cons]
    rw [ih, addTagsIter_notifs]

theorem addTagsIter_recs (fail : Str → Bool) (ts : List Str) (st : State) (i : Nat) :
    (addTagsIter fail ts st i).recs = addRecsIter ts st.recs i := by
  unfold addTagsIter addRecsIter
  cases h : st.recs.get? i with
  | none => simp [h]
  | some r => simp only [h]; split <;> rfl

theorem addTagsFold_recs (fail : Str → Bool) (ts : List Str) :
    ∀ (idxs : List Nat) (st : State),
      (idxs.foldl (addTagsIter fail ts) st).recs
        = idxs.foldl (addRecsIter ts) st.recs := by
  intro idxs
  induction idxs with
  | nil => intro st; rfl
  | cons i rest ih =>
    intro st
    simp only [List.foldl_cons]
    rw [ih, addTagsIter_recs]

theorem applyOp_recs (fail : Str → Bool) (o : Op) (s : State) :
    (applyOp fail o s).recs = opRecs o s.sep s.recs := by
  cases o with
  | addTags ts idxs =>
    cases idxs with
    | nil => rfl
    | cons i rest =>
      simp [applyOp, applyOpRes, addTagsRun, opRecs, addTagsFold_recs,
        addTagsIter_recs, addToUndoStack]
  | findReplace find repl filt vis =>
    by_cases h : find.isEmpty <;>
      simp [applyOp, applyOpRes, opRecs, h, bulkStepRun, addToUndoStack]
  | _ => rfl

theorem applyOp_sep (fail : Str → Bool) (o : Op) (s : State) :
    (applyOp fail o s).sep = s.sep := by
  cases o with
  | addTags ts idxs =>
    cases idxs with
    | nil => rfl
    | cons i rest =>
      simp [applyOp, applyOpRes, addTagsRun, addTagsFold_sep, addTagsIter_sep,
        addToUndoStack]
  | findReplace find repl filt vis =>
    by_cases h : find.isEmpty <;>
      simp [applyOp, applyOpRes, h, bulkStepRun, addToUndoStack]
  | _ => rfl

theorem applyOp_undo (fail : Str → Bool) (o : Op) (s : State)
    (h : realOp o = true) :
    (applyOp fail o s).undo
      = pushCap s.undo ⟨opNm o, s.recs.map Rec.tags, opCf o⟩ := by
  cases o with
  | addTags ts idxs =>
    cases idxs with
    | nil => rfl
    | cons i rest =>
      simp [applyOp, applyOpRes, addTagsRun, addTagsFold_undo, addTagsIter_undo,
        addToUndoStack, opNm, opCf]
  | findReplace find repl filt vis =>
    have h' : find.isEmpty = false := by simpa [realOp] using h
    simp [applyOp, applyOpRes, h', bulkStepRun, addToUndoStack, opNm, opCf]
  | _ => rfl

theorem applyOp_noop (fail : Str → Bool) (o : Op) (s : State)
    (h : realOp o = false) : applyOp fail o s = s := by
  cases o with
  | findReplace find repl filt vis =>
    have h' : find.isEmpty = true := by simpa [realOp] using h
    simp [applyOp, applyOpRes, h']
  | _ => simp [realOp] at h

/-! ## Helper lemmas: operations preserve record count and paths -/

theorem renameStep_path (old new : Str) (filt : Bool) (vis : Rec → Bool)
    (sep : Str) (r : Rec) : ((renameStep old new filt vis sep r).1).path = r.path := by
  unfold renameStep
  repeat' split
  all_goals rfl

theorem deleteStep_path (tag : Str) (filt : Bool) (vis : Rec → Bool)
    (sep : Str) (r : Rec) : ((deleteStep tag filt vis sep r).1).path = r.path := by
  unfold deleteStep
  repeat' split
  all_goals rfl

theorem sortAlphaStep_path (keep : Bool) (sep : Str) (r : Rec) :
    ((sortAlphaStep keep sep r).1).path = r.path := by
  unfold sortAlphaStep
  repeat' split
  all_goals rfl

theorem sortFreqStep_path (counter : Str → Nat) (keep : Bool) (sep : Str) (r : Rec) :
    ((sortFreqStep counter keep sep r).1).path = r.path := by
  unfold sortFreqStep
  repeat' split
  all_goals rfl

theorem shuffleStep_path (keep : Bool) (shuf : List Str → List Str) (sep : Str)
    (r : Rec) : ((shuffleStep keep shuf sep r).1).path = r.path := by
  unfold shuffleStep
  repeat' split
  all_goals rfl

theorem dedupStep_path (sep : Str) (r : Rec) :
    ((dedupStep sep r).1).path = r.path := by
  unfold dedupStep
  repeat' split
  all_goals rfl

theorem removeEmptyStep_path (sep : Str) (r : Rec) :
    ((removeEmptyStep sep r).1).path = r.path := by
  unfold removeEmptyStep
  dsimp only
  split <;> rfl

theorem findReplaceStep_path (find repl : Str) (filt : Bool) (vis : Rec → Bool)
    (sep : Str) (r : Rec) :
    ((findReplaceStep find repl filt vis sep r).1).path = r.path := by
  unfold findReplaceStep
  dsimp only
  repeat' split
  all_goals rfl

theorem stepRecs_length (step : Str → Rec → Rec × Bool) (sep : Str)
    (recs : List Rec) : (stepRecs step sep recs).length = recs.length := by
  simp [stepRecs]

theorem stepRecs_path (step : Str → Rec → Rec × Bool)
    (hp : ∀ sep r, ((step sep r).1).path = r.path) (sep : Str) (recs : List Rec)
    (i : Nat) :
    ((stepRecs step sep recs).get? i).map Rec.path = (recs.get? i).map Rec.path := by
  simp only [stepRecs, List.get?_map]
  cases recs.get? i <;> simp [hp]

theorem addRecsIter_length (ts : List Str) (recs : List Rec) (j : Nat) :
    (addRecsIter ts recs j).length = recs.length := by
  unfold addRecsIter
  cases h : recs.get? j <;> simp [h]

theorem addRecsIter_path (ts : List Str) (recs : List Rec) (j i : Nat) :
    ((addRecsIter ts recs j).get? i).map Rec.path = (recs.get? i).map Rec.path := by
  unfold addRecsIter
  cases h : recs.get? j with
  | none => rfl
  | some r =>
    rw [List.get?_set]
    by_cases hij : j = i
    · subst hij
      rw [h]
      simp
    · simp [hij]

theorem addRecsFold_length (ts : List Str) :
    ∀ (idxs : List Nat) (recs : List Rec),
      (idxs.foldl (addRecsIter ts) recs).length = recs.length := by
  intro idxs
  induction idxs with
  | nil => intro recs; rfl
  | cons j rest ih =>
    intro recs
    simp only [List.foldl_cons]
    rw [ih, addRecsIter_length]

theorem addRecsFold_path (ts : List Str) :
    ∀ (idxs : List Nat) (recs : List Rec) (i : Nat),
      ((idxs.foldl (addRecsIter ts) recs).get? i).map Rec.path
        = (recs.get? i).map Rec.path := by
  intro idxs
  induction idxs with
  | nil => intro recs i; rfl
  | cons j rest ih =>
    intro recs i
    simp only [List.foldl_cons]
    rw [ih, addRecsIter_path]

theorem opRecs_length (o : Op) (sep : Str) (recs : List Rec) :
    (opRecs o sep recs).length = recs.length := by
  cases o with
  | addTags ts idxs => exact addRecsFold_length ts idxs recs
  | findReplace find repl filt vis =>
    by_cases h : find.isEmpty <;> simp [opRecs, h, stepRecs_length]
  | _ => simp [opRecs, stepRecs_length]

theorem opRecs_path (o : Op) (sep : Str) (recs : List Rec) (i : Nat) :
    ((opRecs o sep recs).get? i).map Rec.path = (recs.get? i).map Rec.path := by
  cases o with
  | rename old new filt vis => exact stepRecs_path _ (renameStep_path old new filt vis) _ _ _
  | delete tag filt vis => exact stepRecs_path _ (deleteStep_path tag filt vis) _ _ _
  | addTags ts idxs => exact addRecsFold_path ts idxs recs i
  | sortAlpha keep => exact stepRecs_path _ (sortAlphaStep_path keep) _ _ _
  | sortFreq counter keep => exact stepRecs_path _ (sortFreqStep_path counter keep) _ _ _
  | shuffle keep shuf => exact stepRecs_path _ (shuffleStep_path keep shuf) _ _ _
  | dedup => exact stepRecs_path _ dedupStep_path _ _ _
  | removeEmpty => exact stepRecs_path _ removeEmptyStep_path _ _ _
  | findReplace find repl filt vis =>
    by_cases h : find.isEmpty
    · simp [opRecs, h]
    · simpa [opRecs, h] using
        stepRecs_path _ (findReplaceStep_path find repl filt vis) sep recs i

/-! ## Helper lemmas: a restore with the pre-operation snapshot recreates the
pre-operation records -/

theorem restoreRecs_cons (x : Rec) (xs : List Rec) (t : List Str)
    (ts : List (List Str)) :
    restoreRecs (x :: xs) (t :: ts)
      = (if x.tags == t then x else { x with tags := t }) :: restoreRecs xs ts := by
  simp [restoreRecs]

theorem restoreRecs_restore :
    ∀ (a b : List Rec), a.length = b.length →
      (∀ i, (a.get? i).map Rec.path = (b.get? i).map Rec.path) →
      restoreRecs a (b.map Rec.tags) = b := by
  intro a
  induction a with
  | nil =>
    intro b hlen _
    have : b = [] := by
      cases b with
      | nil => rfl
      | cons y ys => simp at hlen
    subst this
    rfl
  | cons x xs ih =>
    intro b hlen hpath
    cases b with
    | nil => simp at hlen
    | cons y ys =>
      have hxy : x.path = y.path := by
        have := hpath 0
        simpa using this
      have hhead :
          (if x.tags == y.tags then x else { x with tags := y.tags }) = y := by
        by_cases ht : x.tags = y.tags
        · cases x; cases y
          simp_all
        · cases x; cases y
          simp_all
      have htail : restoreRecs xs (ys.map Rec.tags) = ys :=
        ih ys (by simpa using hlen) (fun i => hpath (i + 1))
      simp only [List.map_cons, restoreRecs_cons, hhead, htail]

/-! ## Helper lemmas: the undo stack during an operation sequence -/

theorem applyOps_append (fail : Str → Bool) (ops : List Op) (o : Op) (s : State) :
    applyOps fail (ops ++ [o]) s = applyOp fail o (applyOps fail ops s) := by
  simp [applyOps, List.foldl_append]

theorem realCount_append (ops : List Op) (o : Op) :
    realCount (ops ++ [o]) = realCount ops + realCount [o] := by
  simp [realCount, List.countP_append]

theorem applyOps_undo_length (fail : Str → Bool) :
    ∀ (ops : List Op) (s : State),
      s.undo.length + realCount ops ≤ UNDO_STACK_SIZE →
      (applyOps fail ops s).undo.length = s.undo.length + realCount ops := by
  intro ops
  induction ops with
  | nil => intro s _; simp [applyOps, realCount]
  | cons o rest ih =>
    intro s h
    have hrc : realCount (o :: rest)
        = realCount rest + if realOp o then 1 else 0 := by
      simp [realCount, List.countP_cons]
    by_cases hr : realOp o
    · have hlt : s.undo.length < UNDO_STACK_SIZE := by
        rw [hrc] at h
        simp [hr] at h
        omega
      have hpush : (applyOp fail o s).undo = s.undo ++ [⟨opNm o, s.recs.map Rec.tags, opCf o⟩] := by
        rw [applyOp_undo fail o s hr, pushCap_of_lt _ hlt]
      have := ih (applyOp fail o s)
        (by rw [hpush]; simp; rw [hrc] at h; simp [hr] at h; omega)
      simp only [applyOps, List.foldl_cons] at this ⊢
      rw [this, hpush]
      simp [hrc, hr]
      omega
    · have hid : applyOp fail o s = s :=
        applyOp_noop fail o s (by simpa using hr)
      have := ih s (by rw [hrc] at h; simp [hr] at h; omega)
      simp only [applyOps, List.foldl_cons] at this ⊢
      rw [hid, this, hrc]
      simp [hr]

/-- The complete-inversion lemma behind the undo round-trip claims: starting
from a loaded state (empty undo stack), a sequence of operations pushing at
most 32 snapshots followed by as many approved undos as there were operations
restores every record's tags and leaves the undo stack empty again. -/
theorem undo_inverts_aux (fail : Str → Bool) :
    ∀ (ops : List Op) (s : State), s.undo = [] →
      realCount ops ≤ UNDO_STACK_SIZE →
      tagsOf (undoN fail ops.length (applyOps fail ops s)) = tagsOf s ∧
      (undoN fail ops.length (applyOps fail ops s)).undo = [] := by
  intro ops
  induction ops using List.reverseRecOn with
  | nil =>
    intro s h0 _
    simp [applyOps, undoN, tagsOf, h0]
  | append_singleton rest o ih =>
    intro s h0 hrc
    have hrc' : realCount rest ≤ UNDO_STACK_SIZE := by
      rw [realCount_append] at hrc
      omega
    set Y := applyOps fail rest s with hY
    have hIH := ih s h0 hrc'
    rw [applyOps_append]
    by_cases hr : realOp o
    · -- the final operation pushed a snapshot; the first undo pops it and
      -- recreates `Y`'s records and undo stack
      have hr1 : realCount [o] = 1 := by simp [realCount, hr]
      have hYlen : Y.undo.length = realCount rest := by
        have := applyOps_undo_length fail rest s (by rw [h0]; simpa using hrc')
        rw [h0] at this
        simpa using this
      have hYlt : Y.undo.length < UNDO_STACK_SIZE := by
        rw [realCount_append, hr1] at hrc
        omega
      have hpush : (applyOp fail o Y).undo
          = Y.undo ++ [⟨opNm o, Y.recs.map Rec.tags, opCf o⟩] := by
        rw [applyOp_undo fail o Y hr, pushCap_of_lt _ hYlt]
      have hXrecs : (applyOp fail o Y).recs = opRecs o Y.sep Y.recs :=
        applyOp_recs fail o Y
      -- the first restore: pops the snapshot and restores Y.recs
      have hstep : undoCoreStep ((applyOp fail o Y).recs, (applyOp fail o Y).undo)
          = (Y.recs, Y.undo) := by
        rw [hpush, hXrecs]
        unfold undoCoreStep
        rw [List.getLast?_concat]
        simp only [List.dropLast_concat]
        congr 1
        exact restoreRecs_restore (opRecs o Y.sep Y.recs) Y.recs
          (opRecs_length o Y.sep Y.recs) (opRecs_path o Y.sep Y.recs)
      have hlen : (rest ++ [o]).length = rest.length + 1 := by simp
      rw [hlen]
      have hcore : ((undoN fail (rest.length + 1) (applyOp fail o Y)).recs,
          (undoN fail (rest.length + 1) (applyOp fail o Y)).undo)
          = undoCoreN rest.length (Y.recs, Y.undo) := by
        rw [undoN_core]
        show undoCoreN (rest.length + 1) _ = _
        rw [undoCoreN, hstep]
      have hcoreY : ((undoN fail rest.length Y).recs, (undoN fail rest.length Y).undo)
          = undoCoreN rest.length (Y.recs, Y.undo) := undoN_core fail rest.length Y
      have hrecs : (undoN fail (rest.length + 1) (applyOp fail o Y)).recs
          = (undoN fail rest.length Y).recs := by
        have := hcore.trans hcoreY.symm
        exact congrArg Prod.fst this
      have hundo : (undoN fail (rest.length + 1) (applyOp fail o Y)).undo
          = (undoN fail rest.length Y).undo := by
        have := hcore.trans hcoreY.symm
        exact congrArg Prod.snd this
      constructor
      · show ((undoN fail (rest.length + 1) (applyOp fail o Y)).recs).map Rec.tags = _
        rw [hrecs]
        exact hIH.1
      · rw [hundo]
        exact hIH.2
    · -- the final operation was the no-op `find_and_replace('')`: no snapshot
      -- was pushed, and the extra undo at the end finds an empty undo stack
      have hid : applyOp fail o Y = Y := applyOp_noop fail o Y (by simpa using hr)
      have hlen : (rest ++ [o]).length = rest.length + 1 := by simp
      rw [hlen, hid, undoN_succ_last]
      have hnil : (undoN fail rest.length Y).undo = [] := hIH.2
      rw [restore_of_undo_nil fail true _ hnil]
      exact hIH

/-! ## Helper lemmas: undo-stack evolution with an extra oldest entry -/

theorem applyOp_undo_le (fail : Str → Bool) (o : Op) (s : State)
    (h : s.undo.length ≤ UNDO_STACK_SIZE) :
    (applyOp fail o s).undo.length ≤ UNDO_STACK_SIZE := by
  by_cases hr : realOp o
  · rw [applyOp_undo fail o s hr]
    exact pushCap_length_le _ h
  · rw [applyOp_noop fail o s (by simpa using hr)]
    exact h

theorem applyOps_undo_le (fail : Str → Bool) :
    ∀ (ops : List Op) (s : State), s.undo.length ≤ UNDO_STACK_SIZE →
      (applyOps fail ops s).undo.length ≤ UNDO_STACK_SIZE := by
  intro ops
  induction ops with
  | nil => intro s h; exact h
  | cons o rest ih =>
    intro s h
    simp only [applyOps, List.foldl_cons] at ih ⊢
    exact ih _ (applyOp_undo_le fail o s h)

theorem realCount_eq_length {ops : List Op} (h : ∀ o ∈ ops, realOp o = true) :
    realCount ops = ops.length :=
  List.countP_eq_length.mpr h

/-- Equal records, separator and undo stack are preserved by any operation
sequence (the remaining state components never feed back into these three). -/
theorem applyOps_eqcore (fail : Str → Bool) :
    ∀ (ops : List Op) (s t : State),
      s.recs = t.recs → s.sep = t.sep → s.undo = t.undo →
      (applyOps fail ops s).recs = (applyOps fail ops t).recs ∧
      (applyOps fail ops s).sep = (applyOps fail ops t).sep ∧
      (applyOps fail ops s).undo = (applyOps fail ops t).undo := by
  intro ops
  induction ops with
  | nil => intro s t h1 h2 h3; exact ⟨h1, h2, h3⟩
  | cons o rest ih =>
    intro s t h1 h2 h3
    simp only [applyOps, List.foldl_cons] at ih ⊢
    apply ih
    · rw [applyOp_recs, applyOp_recs, h1, h2]
    · rw [applyOp_sep, applyOp_sep, h2]
    · by_cases hr : realOp o
      · rw [applyOp_undo fail o s hr, applyOp_undo fail o t hr, h1, h3]
      · rw [applyOp_noop fail o s (by simpa using hr),
          applyOp_noop fail o t (by simpa using hr)]
        exact h3

/-- Running the same operations from two states that differ only in one extra
oldest undo entry keeps the records equal, and the undo stacks either become
equal (once the bounded deque evicts the extra oldest entry) or keep differing
by exactly that entry. -/
theorem applyOps_evict (fail : Str → Bool) :
    ∀ (ops : List Op) (s t : State) (x : HistoryItem),
      s.recs = t.recs → s.sep = t.sep → s.undo = x :: t.undo →
      t.undo.length + realCount ops ≤ UNDO_STACK_SIZE →
      (applyOps fail ops s).recs = (applyOps fail ops t).recs ∧
      (applyOps fail ops s).sep = (applyOps fail ops t).sep ∧
      ((applyOps fail ops s).undo = (applyOps fail ops t).undo ∨
       (applyOps fail ops s).undo = x :: (applyOps fail ops t).undo) := by
  intro ops
  induction ops with
  | nil => intro s t x h1 h2 h3 _; exact ⟨h1, h2, Or.inr h3⟩
  | cons o rest ih =>
    intro s t x h1 h2 h3 hbound
    have hrc : realCount (o :: rest)
        = realCount rest + if realOp o then 1 else 0 := by
      simp [realCount, List.countP_cons]
    simp only [applyOps, List.foldl_cons] at ih ⊢
    have hrecs : (applyOp fail o s).recs = (applyOp fail o t).recs := by
      rw [applyOp_recs, applyOp_recs, h1, h2]
    have hsep : (applyOp fail o s).sep = (applyOp fail o t).sep := by
      rw [applyOp_sep, applyOp_sep, h2]
    by_cases hr : realOp o
    · have hsnap : (⟨opNm o, s.recs.map Rec.tags, opCf o⟩ : HistoryItem)
          = ⟨opNm o, t.recs.map Rec.tags, opCf o⟩ := by rw [h1]
      have htlt : t.undo.length < UNDO_STACK_SIZE := by
        rw [hrc] at hbound
        simp [hr] at hbound
        omega
      have htpush : (applyOp fail o t).undo
          = t.undo ++ [⟨opNm o, t.recs.map Rec.tags, opCf o⟩] := by
        rw [applyOp_undo fail o t hr, pushCap_of_lt _ htlt]
      by_cases hslt : s.undo.length < UNDO_STACK_SIZE
      · -- the extra entry survives this push
        have hspush : (applyOp fail o s).undo
            = x :: (t.undo ++ [⟨opNm o, t.recs.map Rec.tags, opCf o⟩]) := by
          rw [applyOp_undo fail o s hr, pushCap_of_lt _ hslt, h3, hsnap]
          simp
        apply ih _ _ x hrecs hsep (by rw [hspush, htpush])
        rw [htpush]
        rw [hrc] at hbound
        simp [hr] at hbound
        simp
        omega
      · -- the push evicts the extra oldest entry; the stacks coincide from
        -- here on
        have hspush : (applyOp fail o s).undo
            = t.undo ++ [⟨opNm o, t.recs.map Rec.tags, opCf o⟩] := by
          rw [applyOp_undo fail o s hr, h3, hsnap]
          unfold pushCap
          rw [if_neg (by simpa [h3] using hslt)]
          simp
        have := applyOps_eqcore fail rest (applyOp fail o s) (applyOp fail o t)
          hrecs hsep (by rw [hspush, htpush])
        exact ⟨this.1, this.2.1, Or.inl this.2.2⟩
    · have hids : applyOp fail o s = s := applyOp_noop fail o s (by simpa using hr)
      have hidt : applyOp fail o t = t := applyOp_noop fail o t (by simpa using hr)
      rw [hids, hidt]
      apply ih _ _ x h1 h2 h3
      rw [hrc] at hbound
      simp [hr] at hbound
      omega

/-! ## Claim theorems -/

/-- C1: starting from any loaded catalog state, any sequence of at most 32
mutation operations (each in its valid domain, every confirmation approved)
followed by one approved `undo()` per operation, in reverse order, restores
every record's tag list to its value before the first operation. -/
theorem c1_undo_roundtrip (fail : Str → Bool) (s : State) (ops : List Op)
    (hload : s.undo = []) (hlen : ops.length ≤ 32)
    (_hvalid : ∀ o ∈ ops, ValidOp s.recs.length o) :
    tagsOf (undoN fail ops.length (applyOps fail ops s)) = tagsOf s := by
  have hrc : realCount ops ≤ UNDO_STACK_SIZE :=
    le_trans (List.countP_le_length realOp) (by simpa [UNDO_STACK_SIZE] using hlen)
  exact (undo_inverts_aux fail ops s hload hrc).1

/-- Witness for C1 at a concrete catalog and operation sequence. -/
theorem c1_witness :
    tagsOf (undoN noFail 2
        (applyOps noFail [Op.sortAlpha false, Op.addTags [['c']] [0]] demoState))
      = tagsOf demoState :=
  c1_undo_roundtrip noFail demoState [Op.sortAlpha false, Op.addTags [['c']] [0]]
    (by rfl) (by decide)
    (by
      intro o ho
      simp only [List.mem_cons, List.not_mem_nil, or_false] at ho
      rcases ho with h | h
      · subst h; trivial
      · subst h
        refine ⟨?_, ?_⟩
        · decide
        · decide)

/-- C5: the undo stack is bounded at 32 entries; 33 snapshot-pushing
operations evict the oldest snapshot, so 32 approved undos afterwards reach
the state after the first operation, not the original catalog state (whenever
the first operation changed anything). -/
theorem c5_eviction (fail : Str → Bool) (s : State) (o1 : Op) (rest : List Op)
    (hload : s.undo = []) (hlen : rest.length = 32)
    (hreal1 : realOp o1 = true) (hreal : ∀ o ∈ rest, realOp o = true) :
    (∀ (ops : List Op) (u : State), u.undo.length ≤ 32 →
      (applyOps fail ops u).undo.length ≤ 32) ∧
    (applyOps fail (o1 :: rest) s).undo.length = 32 ∧
    tagsOf (undoN fail 32 (applyOps fail (o1 :: rest) s))
      = tagsOf (applyOp fail o1 s) ∧
    (tagsOf (applyOp fail o1 s) ≠ tagsOf s →
      tagsOf (undoN fail 32 (applyOps fail (o1 :: rest) s)) ≠ tagsOf s) := by
  have hrc : realCount rest = 32 := by rw [realCount_eq_length hreal, hlen]
  set s1 := applyOp fail o1 s with hs1
  set t1 : State := { s1 with undo := [] } with ht1
  have hs1undo : s1.undo = [⟨opNm o1, s.recs.map Rec.tags, opCf o1⟩] := by
    rw [hs1, applyOp_undo fail o1 s hreal1, hload,
      pushCap_of_lt _ (by simp [UNDO_STACK_SIZE])]
    simp
  have hrel := applyOps_evict fail rest s1 t1 ⟨opNm o1, s.recs.map Rec.tags, opCf o1⟩
    rfl rfl (by rw [hs1undo]) (by simp [ht1, hrc, UNDO_STACK_SIZE])
  have hT1len : (applyOps fail rest t1).undo.length = 32 := by
    have := applyOps_undo_length fail rest t1
      (by simp [ht1, hrc, UNDO_STACK_SIZE])
    simpa [ht1, hrc] using this
  have hSle : (applyOps fail rest s1).undo.length ≤ 32 := by
    have := applyOps_undo_le fail rest s1 (by rw [hs1undo]; simp [UNDO_STACK_SIZE])
    simpa [UNDO_STACK_SIZE] using this
  have hundo : (applyOps fail rest s1).undo = (applyOps fail rest t1).undo := by
    rcases hrel.2.2 with h | h
    · exact h
    · exfalso
      have : (applyOps fail rest s1).undo.length = 33 := by rw [h]; simp [hT1len]
      omega
  have happ : applyOps fail (o1 :: rest) s = applyOps fail rest s1 := by
    simp [applyOps, List.foldl_cons, hs1]
  have hcoreS : ((undoN fail 32 (applyOps fail rest s1)).recs,
      (undoN fail 32 (applyOps fail rest s1)).undo)
      = undoCoreN 32 ((applyOps fail rest s1).recs, (applyOps fail rest s1).undo) :=
    undoN_core fail 32 _
  have hcoreT : ((undoN fail 32 (applyOps fail rest t1)).recs,
      (undoN fail 32 (applyOps fail rest t1)).undo)
      = undoCoreN 32 ((applyOps fail rest t1).recs, (applyOps fail rest t1).undo) :=
    undoN_core fail 32 _
  have hrecsST : (undoN fail 32 (applyOps fail rest s1)).recs
      = (undoN fail 32 (applyOps fail rest t1)).recs := by
    have : undoCoreN 32 ((applyOps fail rest s1).recs, (applyOps fail rest s1).undo)
        = undoCoreN 32 ((applyOps fail rest t1).recs, (applyOps fail rest t1).undo) := by
      rw [hrel.1, hundo]
    exact congrArg Prod.fst (hcoreS.trans (this.trans hcoreT.symm))
  have hinv := undo_inverts_aux fail rest t1 rfl
    (by rw [hrc]; simp [UNDO_STACK_SIZE])
  have hfinalT : tagsOf (undoN fail 32 (applyOps fail rest t1)) = tagsOf t1 := by
    have := hinv.1
    rwa [hlen] at this
  have htags1 : tagsOf t1 = tagsOf s1 := rfl
  have hmain : tagsOf (undoN fail 32 (applyOps fail (o1 :: rest) s))
      = tagsOf (applyOp fail o1 s) := by
    rw [happ]
    show ((undoN fail 32 (applyOps fail rest s1)).recs).map Rec.tags = _
    rw [hrecsST]
    exact hfinalT
  refine ⟨?_, ?_, hmain, ?_⟩
  · intro ops u hu
    have := applyOps_undo_le fail ops u (by simpa [UNDO_STACK_SIZE] using hu)
    simpa [UNDO_STACK_SIZE] using this
  · rw [happ, hundo]
    exact hT1len
  · intro hne
    rw [hmain]
    exact hne

/-- Witness for C5: a two-tag catalog, one real change then 32 no-change
snapshot-pushing operations; after 32 undos the catalog shows the state after
the first operation, which differs from the original. -/
theorem c5_witness :
    (applyOps noFail (Op.sortAlpha false :: List.replicate 32 Op.dedup) demoState).undo.length = 32 ∧
    tagsOf (undoN noFail 32
        (applyOps noFail (Op.sortAlpha false :: List.replicate 32 Op.dedup) demoState))
      = tagsOf (applyOp noFail (Op.sortAlpha false) demoState) ∧
    tagsOf (undoN noFail 32
        (applyOps noFail (Op.sortAlpha false :: List.replicate 32 Op.dedup) demoState))
      ≠ tagsOf demoState := by
  have h := c5_eviction noFail demoState (Op.sortAlpha false) (List.replicate 32 Op.dedup)
    (by rfl) (by decide) (by decide)
    (by
      intro o ho
      have := List.eq_of_mem_replicate ho
      subst this
      rfl)
  have hne : tagsOf (applyOp noFail (Op.sortAlpha false) demoState) ≠ tagsOf demoState := by
    decide
  exact ⟨h.2.1, h.2.2.1, h.2.2.2 hne⟩

/-- C7: when the confirmation prompt of `undo()` or `redo()` is shown (the
top item requires confirmation) and declined, the call leaves the whole state
untouched: both stacks, every record's tags, the disk and the notifications. -/
theorem c7_decline_noop (fail : Str → Bool) (s : State) :
    (∀ item, s.undo.getLast? = some item → item.confirm = true →
      restoreHistory fail true false s = s) ∧
    (∀ item, s.redo.getLast? = some item → item.confirm = true →
      restoreHistory fail false false s = s) := by
  constructor
  · intro item h hc
    simp [restoreHistory, h, hc]
  · intro item h hc
    simp [restoreHistory, h, hc]

/-- A state whose both stacks have a confirmation-requiring top item. -/
def declineState : State :=
  { demoState with
    undo := [⟨"Sort Tags".toList, [[['a']]], true⟩]
    redo := [⟨"Shuffle Tags".toList, [[['c']]], true⟩] }

/-- Witness for C7: both declined calls return the state unchanged. -/
theorem c7_witness :
    restoreHistory noFail true false declineState = declineState ∧
    restoreHistory noFail false false declineState = declineState :=
  ⟨(c7_decline_noop noFail declineState).1 ⟨"Sort Tags".toList, [[['a']]], true⟩
      (by decide) rfl,
   (c7_decline_noop noFail declineState).2 ⟨"Shuffle Tags".toList, [[['c']]], true⟩
      (by decide) rfl⟩

/-- C10: `add_tags` with an empty target list is not total: the snapshot is
pushed (with the single-target confirmation flag `False`) and the redo stack
is cleared, then `min([])` raises before any tag change, disk write or
notification. -/
theorem c10_add_empty_raises (fail : Str → Bool) (ts : List Str) (s : State) :
    (applyOpRes fail (Op.addTags ts []) s).2 = true ∧
    (applyOpRes fail (Op.addTags ts []) s).1.recs = s.recs ∧
    (applyOpRes fail (Op.addTags ts []) s).1.undo
      = pushCap s.undo ⟨addName ts, s.recs.map Rec.tags, false⟩ ∧
    (applyOpRes fail (Op.addTags ts []) s).1.redo = [] ∧
    (applyOpRes fail (Op.addTags ts []) s).1.disk = s.disk ∧
    (applyOpRes fail (Op.addTags ts []) s).1.errors = s.errors ∧
    (applyOpRes fail (Op.addTags ts []) s).1.notifs = s.notifs :=
  ⟨rfl, rfl, rfl, rfl, rfl, rfl, rfl⟩

/-! ## Claim C6: redo-stack clearing -/

theorem applyOp_redo_real (fail : Str → Bool) (o : Op) (s : State)
    (h : realOp o = true) : (applyOp fail o s).redo = [] := by
  cases o with
  | addTags ts idxs =>
    cases idxs with
    | nil => rfl
    | cons i rest =>
      simp [applyOp, applyOpRes, addTagsRun, addTagsFold_redo, addTagsIter_redo,
        addToUndoStack]
  | findReplace find repl filt vis =>
    have h' : find.isEmpty = false := by simpa [realOp] using h
    simp [applyOp, applyOpRes, h', bulkStepRun, addToUndoStack]
  | _ => rfl

theorem restore_undo_fail (fail : Str → Bool) (reply : Bool) (s : State)
    (h : undoSucceeds reply s = false) :
    restoreHistory fail true reply s = s := by
  unfold undoSucceeds at h
  cases hg : s.undo.getLast? with
  | none => simp [restoreHistory, hg]
  | some item =>
    rw [hg] at h
    simp only [Bool.not_eq_false', Bool.not_eq_true] at h
    simp [restoreHistory, hg, h]

theorem restore_redo_of_nil (fail : Str → Bool) (reply : Bool) (s : State)
    (h : s.redo = []) : (restoreHistory fail false reply s).redo = [] := by
  simp [restoreHistory, h]

/-- C6 (amended): every snapshot push clears the redo stack, so the redo
stack is empty immediately after any `add_to_undo_stack` call; consequently
along any action trace from a redo-empty state the redo stack can be
non-empty only when a successful (confirmed) undo happened more recently
than the last snapshot push — the ghost flag of `execTrace` records exactly
that, and it is forced to `true` whenever the redo stack is non-empty.  (The
original claim's stronger phrasing — that the most recent history-affecting
action must itself be an undo — fails, because a redo can pop one of several
accumulated items and leave the rest.) -/
theorem c6_amended :
    (∀ (name : Str) (conf : Bool) (s : State), (addToUndoStack name conf s).redo = []) ∧
    (∀ (fail : Str → Bool) (acts : List Act) (s : State) (b : Bool),
      (s.redo ≠ [] → b = true) →
      ((execTrace fail acts (s, b)).1.redo ≠ [] → (execTrace fail acts (s, b)).2 = true)) := by
  constructor
  · intro name conf s; rfl
  · intro fail acts
    induction acts with
    | nil => intro s b hb; exact hb
    | cons a rest ih =>
      intro s b hb
      show (execTrace fail rest (execAct fail (s, b) a)).1.redo ≠ [] →
        (execTrace fail rest (execAct fail (s, b) a)).2 = true
      rcases hp : execAct fail (s, b) a with ⟨s', b'⟩
      have hinv : s'.redo ≠ [] → b' = true := by
        cases a with
        | mutA o =>
          by_cases hr : realOp o
          · intro hcon
            exfalso
            apply hcon
            have : s' = applyOp fail o s := by
              simpa [execAct] using congrArg Prod.fst hp.symm
            rw [this]
            exact applyOp_redo_real fail o s hr
          · have hs' : s' = s := by
              have := congrArg Prod.fst hp.symm
              simpa [execAct, applyOp_noop fail o s (by simpa using hr)] using this
            have hb' : b' = b := by
              have := congrArg Prod.snd hp.symm
              simpa [execAct, hr] using this
            rw [hs', hb']
            exact hb
        | undoA reply =>
          by_cases hu : undoSucceeds reply s
          · have hb' : b' = true := by
              have := congrArg Prod.snd hp.symm
              simpa [execAct, hu] using this
            intro _
            exact hb'
          · have hs' : s' = s := by
              have := congrArg Prod.fst hp.symm
              simpa [execAct, restore_undo_fail fail reply s (by simpa using hu)]
                using this
            have hb' : b' = b := by
              have := congrArg Prod.snd hp.symm
              simpa [execAct, hu] using this
            rw [hs', hb']
            exact hb
        | redoA reply =>
          have hs' : s' = restoreHistory fail false reply s := by
            simpa [execAct] using congrArg Prod.fst hp.symm
          have hb' : b' = b := by
            simpa [execAct] using congrArg Prod.snd hp.symm
          intro hne
          by_cases hnil : s.redo = []
          · exfalso
            apply hne
            rw [hs']
            exact restore_redo_of_nil fail reply s hnil
          · rw [hb']
            exact hb hnil
      exact ih s' b' hinv

/-- Counterexample for C6's consequent as stated: after two mutations and two
approved undos, an approved `redo()` pops one of the two redo items — it is
itself the most recent history-affecting action (it changes both stacks) and
is not an undo, yet it leaves the redo stack non-empty. -/
theorem c6_counterexample :
    (let p4 := execTrace noFail
        [Act.mutA (Op.rename ['a'] ['x'] false (fun _ => true)),
         Act.mutA (Op.rename ['x'] ['y'] false (fun _ => true)),
         Act.undoA true, Act.undoA true] (demoState, false)
     let p5 := execAct noFail p4 (Act.redoA true)
     p5.1.redo ≠ [] ∧ p5.1.redo ≠ p4.1.redo ∧ p5.1.undo ≠ p4.1.undo) := by
  decide

/-- Witness for C6 (amended), at a concrete snapshot push and a concrete
trace. -/
theorem c6_witness :
    (addToUndoStack ['n'] true declineState).redo = [] ∧
    ((execTrace noFail [Act.undoA true] (demoState, false)).1.redo ≠ [] →
      (execTrace noFail [Act.undoA true] (demoState, false)).2 = true) :=
  ⟨c6_amended.1 ['n'] true declineState,
   c6_amended.2 noFail [Act.undoA true] demoState false (by decide)⟩

/-- C8: sidecar-write failures during a bulk operation are reported with a
message naming the record's path, do not roll back the in-memory tags, do not
stop the remaining records' processing, and do not change what is notified:
for every failure oracle, the in-memory result and the notifications equal
the no-failure run, the error log gains exactly one message per failing
changed record, and the disk log gains exactly the non-failing changed
records — in particular records after a failing one are still persisted. -/
theorem c8_write_failure (fail : Str → Bool) (name : Str) (conf : Bool)
    (step : Str → Rec → Rec × Bool) (s : State) :
    (bulkStepRun fail name conf step s).recs
      = (bulkStepRun noFail name conf step s).recs ∧
    (bulkStepRun fail name conf step s).notifs
      = (bulkStepRun noFail name conf step s).notifs ∧
    (bulkStepRun fail name conf step s).errors
      = s.errors ++ (stepChanged step s.sep s.recs).filterMap
          (fun i => ((stepRecs step s.sep s.recs).get? i).bind (writeErr fail)) ∧
    (bulkStepRun fail name conf step s).disk
      = s.disk ++ (stepChanged step s.sep s.recs).filterMap
          (fun i => ((stepRecs step s.sep s.recs).get? i).bind (writeOk fail s.sep)) ∧
    (∀ o : Op, (applyOp fail o s).recs = (applyOp noFail o s).recs) := by
  refine ⟨rfl, rfl, ?_, ?_, ?_⟩
  · show (runWrites fail s.sep (stepRecs step s.sep s.recs)
        (stepChanged step s.sep s.recs) s.disk s.errors).2 = _
    rw [runWrites_eq]
  · show (runWrites fail s.sep (stepRecs step s.sep s.recs)
        (stepChanged step s.sep s.recs) s.disk s.errors).1 = _
    rw [runWrites_eq]
  · intro o
    rw [applyOp_recs, applyOp_recs]

/-! ## Claim C3: change tracking, persistence and notification -/

theorem mem_stepChangedGo (step : Str → Rec → Rec × Bool) (sep : Str) :
    ∀ (recs : List Rec) (k i : Nat),
      i ∈ stepChangedGo step sep k recs ↔
        ∃ j r, i = k + j ∧ recs.get? j = some r ∧ (step sep r).2 = true := by
  intro recs
  induction recs with
  | nil => intro k i; simp [stepChangedGo]
  | cons r rs ih =>
    intro k i
    unfold stepChangedGo
    by_cases hf : (step sep r).2
    · rw [if_pos hf]
      simp only [List.mem_cons]
      constructor
      · rintro (rfl | hmem)
        · exact ⟨0, r, by omega, rfl, hf⟩
        · obtain ⟨j, r', hij, hget, hflag⟩ := (ih (k + 1) i).mp hmem
          exact ⟨j + 1, r', by omega, by simpa using hget, hflag⟩
      · rintro ⟨j, r', hij, hget, hflag⟩
        cases j with
        | zero =>
          left
          omega
        | succ m =>
          right
          exact (ih (k + 1) i).mpr ⟨m, r', by omega, by simpa using hget, hflag⟩
    · rw [if_neg hf]
      constructor
      · intro hmem
        obtain ⟨j, r', hij, hget, hflag⟩ := (ih (k + 1) i).mp hmem
        exact ⟨j + 1, r', by omega, by simpa using hget, hflag⟩
      · rintro ⟨j, r', hij, hget, hflag⟩
        cases j with
        | zero =>
          exfalso
          simp only [List.get?] at hget
          cases hget
          exact hf hflag
        | succ m =>
          exact (ih (k + 1) i).mpr ⟨m, r', by omega, by simpa using hget, hflag⟩

theorem mem_stepChanged (step : Str → Rec → Rec × Bool) (sep : Str)
    (recs : List Rec) (i : Nat) :
    i ∈ stepChanged step sep recs ↔
      ∃ r, recs.get? i = some r ∧ (step sep r).2 = true := by
  unfold stepChanged
  rw [mem_stepChangedGo]
  constructor
  · rintro ⟨j, r, hij, hget, hflag⟩
    have : i = j := by omega
    subst this
    exact ⟨r, hget, hflag⟩
  · rintro ⟨r, hget, hflag⟩
    exact ⟨i, r, by omega, hget, hflag⟩

theorem sortAlphaStep_flag_iff (keep : Bool) (sep : Str) (r : Rec) :
    (sortAlphaStep keep sep r).2 = true ↔
      joinTags sep ((sortAlphaStep keep sep r).1).tags ≠ joinTags sep r.tags := by
  unfold sortAlphaStep
  dsimp only
  split
  · simp
  · simp

theorem sortFreqStep_flag_iff (counter : Str → Nat) (keep : Bool) (sep : Str)
    (r : Rec) :
    (sortFreqStep counter keep sep r).2 = true ↔
      joinTags sep ((sortFreqStep counter keep sep r).1).tags ≠ joinTags sep r.tags := by
  unfold sortFreqStep
  dsimp only
  split
  · simp
  · simp

theorem sort_changed_iff_of_flag (step : Str → Rec → Rec × Bool)
    (hiff : ∀ sep r, (step sep r).2 = true ↔
      joinTags sep ((step sep r).1).tags ≠ joinTags sep r.tags)
    (sep : Str) (recs : List Rec) (i : Nat) :
    i ∈ stepChanged step sep recs ↔
      ((stepRecs step sep recs).get? i).map (fun r => joinTags sep r.tags)
        ≠ (recs.get? i).map (fun r => joinTags sep r.tags) := by
  rw [mem_stepChanged]
  cases h : recs.get? i with
  | none =>
    have hs : (stepRecs step sep recs).get? i = none := by
      simp only [stepRecs, List.get?_map, h, Option.map_none']
    constructor
    · rintro ⟨r, hr, _⟩
      exact Option.noConfusion hr
    · intro hne
      exfalso
      apply hne
      rw [hs]
  | some r =>
    have hs : (stepRecs step sep recs).get? i = some ((step sep r).1) := by
      simp only [stepRecs, List.get?_map, h, Option.map_some']
    rw [hs]
    simp only [Option.map_some', ne_eq, Option.some.injEq]
    constructor
    · rintro ⟨r', hr', hflag⟩
      subst hr'
      exact (hiff sep r).mp hflag
    · intro hne
      exact ⟨r, rfl, (hiff sep r).mpr hne⟩

/-- The disk log a template bulk operation produces when no write fails:
exactly one entry per changed index, keyed by the record's path, holding the
new serialized caption. -/
theorem bulk_disk_noFail (name : Str) (conf : Bool)
    (step : Str → Rec → Rec × Bool) (s : State) :
    (bulkStepRun noFail name conf step s).disk
      = s.disk ++ (stepChanged step s.sep s.recs).filterMap
          (fun i => ((stepRecs step s.sep s.recs).get? i).map
            (fun r => (r.path, joinTags s.sep r.tags))) := by
  show (runWrites noFail s.sep (stepRecs step s.sep s.recs)
      (stepChanged step s.sep s.recs) s.disk s.errors).1 = _
  rw [runWrites_eq]
  dsimp only
  congr 1
  apply List.filterMap_congr
  intro i _
  cases hg : (stepRecs step s.sep s.recs).get? i <;> simp [hg, writeOk, noFail]

/-- The notification a template bulk operation emits. -/
theorem bulk_notifs (fail : Str → Bool) (name : Str) (conf : Bool)
    (step : Str → Rec → Rec × Bool) (s : State) :
    (bulkStepRun fail name conf step s).notifs
      = s.notifs ++ notifOf (stepChanged step s.sep s.recs) := rfl

/-- One `add_tags` iteration leaves every record's path unchanged. -/
theorem addTagsIter_path (fail : Str → Bool) (ts : List Str) (st : State)
    (j i : Nat) :
    ((addTagsIter fail ts st j).recs.get? i).map Rec.path
      = (st.recs.get? i).map Rec.path := by
  rw [addTagsIter_recs]
  exact addRecsIter_path ts st.recs j i

/-- The disk log of the `add_tags` loop under the no-failure oracle: one
entry per target index, in order, keyed by the targeted record's path —
regardless of whether the record's tags changed. -/
theorem addTagsFold_disk_paths (ts : List Str) :
    ∀ (idxs : List Nat) (st : State),
      ((idxs.foldl (addTagsIter noFail ts) st).disk).map Prod.fst
        = st.disk.map Prod.fst
          ++ idxs.filterMap (fun i => (st.recs.get? i).map Rec.path) := by
  intro idxs
  induction idxs with
  | nil => intro st; simp
  | cons j rest ih =>
    intro st
    simp only [List.foldl_cons, List.filterMap_cons]
    rw [ih]
    have hpaths : rest.filterMap (fun i => ((addTagsIter noFail ts st j).recs.get? i).map Rec.path)
        = rest.filterMap (fun i => (st.recs.get? i).map Rec.path) :=
      List.filterMap_congr (fun i _ => addTagsIter_path noFail ts st j i)
    rw [hpaths]
    cases hg : st.recs.get? j with
    | none =>
      have hid : addTagsIter noFail ts st j = st := by
        unfold addTagsIter
        rw [hg]
      rw [hid]
      simp
    | some r =>
      have hdisk : (addTagsIter noFail ts st j).disk
          = st.disk ++ [(r.path, joinTags st.sep
              (r.tags ++ ts.filter (fun t => !(r.tags.contains t))))] := by
        unfold addTagsIter
        rw [hg]
        simp [noFail]
      rw [hdisk]
      simp

/-- C3 (amended): only the two sort operations count a position as changed by
comparing the serialized caption before and after (and for them the
equivalence is exact); every per-record bulk operation persists exactly the
counted positions — under the no-failure oracle the disk gains one entry per
counted position with its new caption — and notifies the single range from
the first to the last counted position, with no notification when none was
counted; `add_tags`, by contrast, tracks no changes: it persists every
targeted record and notifies the targets' `[min, max]` row range
unconditionally. -/
theorem c3_change_tracking :
    (∀ (keep : Bool) (sep : Str) (recs : List Rec) (i : Nat),
      i ∈ stepChanged (sortAlphaStep keep) sep recs ↔
        ((stepRecs (sortAlphaStep keep) sep recs).get? i).map (fun r => joinTags sep r.tags)
          ≠ (recs.get? i).map (fun r => joinTags sep r.tags)) ∧
    (∀ (counter : Str → Nat) (keep : Bool) (sep : Str) (recs : List Rec) (i : Nat),
      i ∈ stepChanged (sortFreqStep counter keep) sep recs ↔
        ((stepRecs (sortFreqStep counter keep) sep recs).get? i).map (fun r => joinTags sep r.tags)
          ≠ (recs.get? i).map (fun r => joinTags sep r.tags)) ∧
    (∀ (name : Str) (conf : Bool) (step : Str → Rec → Rec × Bool) (s : State),
      (bulkStepRun noFail name conf step s).disk
        = s.disk ++ (stepChanged step s.sep s.recs).filterMap
            (fun i => ((stepRecs step s.sep s.recs).get? i).map
              (fun r => (r.path, joinTags s.sep r.tags)))) ∧
    (∀ (fail : Str → Bool) (name : Str) (conf : Bool)
        (step : Str → Rec → Rec × Bool) (s : State),
      stepChanged step s.sep s.recs = [] →
        (bulkStepRun fail name conf step s).notifs = s.notifs) ∧
    (∀ (fail : Str → Bool) (name : Str) (conf : Bool)
        (step : Str → Rec → Rec × Bool) (s : State) (c : Nat) (cs : List Nat),
      stepChanged step s.sep s.recs = c :: cs →
        (bulkStepRun fail name conf step s).notifs
          = s.notifs ++ [(c, cs.getLastD c)]) ∧
    (∀ (ts : List Str) (idxs : List Nat) (s : State) (i0 : Nat) (rest : List Nat),
      idxs = i0 :: rest →
        (applyOp noFail (Op.addTags ts idxs) s).notifs
          = s.notifs ++ [(rest.foldl Nat.min i0, rest.foldl Nat.max i0)] ∧
        ((applyOp noFail (Op.addTags ts idxs) s).disk).map Prod.fst
          = s.disk.map Prod.fst
            ++ idxs.filterMap (fun i => (s.recs.get? i).map Rec.path)) := by
  refine ⟨?_, ?_, ?_, ?_, ?_, ?_⟩
  · intro keep sep recs i
    exact sort_changed_iff_of_flag _ (sortAlphaStep_flag_iff keep) sep recs i
  · intro counter keep sep recs i
    exact sort_changed_iff_of_flag _ (sortFreqStep_flag_iff counter keep) sep recs i
  · intro name conf step s
    exact bulk_disk_noFail name conf step s
  · intro fail name conf step s h
    show s.notifs ++ notifOf (stepChanged step s.sep s.recs) = s.notifs
    rw [h]
    simp [notifOf]
  · intro fail name conf step s c cs h
    show s.notifs ++ notifOf (stepChanged step s.sep s.recs) = _
    rw [h]
    rfl
  · intro ts idxs s i0 rest h
    subst h
    constructor
    · simp only [applyOp, applyOpRes, addTagsRun]
      rw [addTagsFold_notifs]
      rfl
    · show ((List.foldl (addTagsIter noFail ts)
          (addToUndoStack (addName ts) (decide ((i0 :: rest).length > 1)) s)
          (i0 :: rest)).disk).map Prod.fst = _
      rw [addTagsFold_disk_paths]
      rfl

/-- Counterexample for C3 as stated: adding an already-present tag leaves the
record's serialized tags unchanged, yet `add_tags` persists the record and
emits a change notification. -/
theorem c3_counterexample :
    (let s : State := { demoState with recs := [⟨"p".toList, [['a']]⟩] }
     let s' := applyOp noFail (Op.addTags [['a']] [0]) s
     tagsOf s' = tagsOf s ∧ s'.disk = [("p".toList, ['a'])] ∧ s'.notifs = [(0, 0)]) := by
  decide

/-- Witness for C3 (amended): concrete instances of the sort equivalence, the
persistence equation and the unconditional `add_tags` notification. -/
theorem c3_witness :
    (0 ∈ stepChanged (sortAlphaStep false) demoState.sep demoState.recs ↔
      ((stepRecs (sortAlphaStep false) demoState.sep demoState.recs).get? 0).map
          (fun r => joinTags demoState.sep r.tags)
        ≠ (demoState.recs.get? 0).map (fun r => joinTags demoState.sep r.tags)) ∧
    ((applyOp noFail (Op.addTags [['b']] [0]) demoState).notifs
      = demoState.notifs ++ [(0, 0)]) :=
  ⟨c3_change_tracking.1 false demoState.sep demoState.recs 0,
   (c3_change_tracking.2.2.2.2.2 [['b']] [0] demoState 0 [] rfl).1⟩

/-! ## Claim C4: shuffle change counting -/

theorem shuffleStep_flag_iff (keep : Bool) (shuf : List Str → List Str)
    (sep : Str) (r : Rec) :
    (shuffleStep keep shuf sep r).2 = true ↔ 2 ≤ r.tags.length := by
  unfold shuffleStep
  split <;> rename_i hlen
  · simp
    omega
  · repeat' split
    all_goals simp; omega

/-- C4 (amended): `shuffle_tags` counts a record as changed — persisting it
and including its position in the notified range — iff it has at least two
tags, regardless of `keepFirstTagFixed` and regardless of whether the
permutation equals the original order. -/
theorem c4_shuffle_threshold :
    (∀ (keep : Bool) (shuf : List Str → List Str) (sep : Str) (recs : List Rec)
        (i : Nat),
      i ∈ stepChanged (shuffleStep keep shuf) sep recs ↔
        ∃ r, recs.get? i = some r ∧ 2 ≤ r.tags.length) ∧
    (∀ (keep : Bool) (shuf : List Str → List Str) (s : State),
      (applyOp noFail (Op.shuffle keep shuf) s).disk
        = s.disk ++ (stepChanged (shuffleStep keep shuf) s.sep s.recs).filterMap
            (fun i => ((stepRecs (shuffleStep keep shuf) s.sep s.recs).get? i).map
              (fun r => (r.path, joinTags s.sep r.tags)))) ∧
    (∀ (keep : Bool) (shuf : List Str → List Str) (s : State),
      stepChanged (shuffleStep keep shuf) s.sep s.recs = [] →
        (applyOp noFail (Op.shuffle keep shuf) s).notifs = s.notifs) ∧
    (∀ (keep : Bool) (shuf : List Str → List Str) (s : State) (c : Nat)
        (cs : List Nat),
      stepChanged (shuffleStep keep shuf) s.sep s.recs = c :: cs →
        (applyOp noFail (Op.shuffle keep shuf) s).notifs
          = s.notifs ++ [(c, cs.getLastD c)]) := by
  refine ⟨?_, ?_, ?_, ?_⟩
  · intro keep shuf sep recs i
    rw [mem_stepChanged]
    exact exists_congr fun r => and_congr_right fun _ =>
      shuffleStep_flag_iff keep shuf sep r
  · intro keep shuf s
    exact bulk_disk_noFail _ _ _ s
  · intro keep shuf s h
    show s.notifs ++ notifOf (stepChanged (shuffleStep keep shuf) s.sep s.recs)
      = s.notifs
    rw [h]
    simp [notifOf]
  · intro keep shuf s c cs h
    show s.notifs ++ notifOf (stepChanged (shuffleStep keep shuf) s.sep s.recs)
      = _
    rw [h]
    rfl

/-- Counterexample for C4 as stated: with `keepFirstTagFixed = true` a record
with exactly two tags is still counted as changed (the claim demands at least
three): even with the identity permutation the record's unchanged tags are
persisted and its position is notified. -/
theorem c4_counterexample :
    (let s' := applyOp noFail (Op.shuffle true id) demoState
     tagsOf s' = tagsOf demoState ∧
     s'.disk = [("p".toList, "b, a".toList)] ∧
     s'.notifs = [(0, 0)]) := by
  decide

/-- Witness for C4 (amended) at a concrete two-tag record. -/
theorem c4_witness :
    (0 ∈ stepChanged (shuffleStep true id) demoState.sep demoState.recs ↔
      ∃ r, demoState.recs.get? 0 = some r ∧ 2 ≤ r.tags.length) ∧
    (applyOp noFail (Op.shuffle true id) demoState).notifs
      = demoState.notifs ++ [(0, 0)] :=
  ⟨c4_shuffle_threshold.1 true id demoState.sep demoState.recs 0,
   c4_shuffle_threshold.2.2.2 true id demoState 0 [] (by decide)⟩

/-! ## Claim C9: find and replace -/

/-- The spec's example catalog: one record with tags `[a cat, catfish]` and
separator `", "`. -/
def catState : State :=
  { demoState with recs := [⟨"c".toList, ["a cat".toList, "catfish".toList]⟩] }

/-- The always-visible filter collaborator. -/
def allVis : Rec → Bool := fun _ => true

theorem findReplaceStep_flag (find repl : Str) (filt : Bool) (vis : Rec → Bool)
    (sep : Str) (r : Rec) :
    (findReplaceStep find repl filt vis sep r).2
      = ((!(filt && !(vis r))) && occurs find (joinTags sep r.tags)) := by
  unfold findReplaceStep
  dsimp only
  by_cases h1 : (filt && !(vis r)) = true
  · simp [h1]
  · rw [if_neg (by simpa using h1)]
    cases h2 : occurs find (joinTags sep r.tags) <;>
      simp [h1, h2]

/-- C9: `find_and_replace` with an empty find text is a complete no-op (no
snapshot, no tag change, no write, no notification); with a non-empty find
text, each in-scope record whose joined caption contains the find text gets
every occurrence replaced — across tag boundaries — and the result re-split
on the separator, while all other records are untouched; on the spec's
example, `[a cat, catfish]` becomes `[a dog, dogfish]`. -/
theorem c9_find_replace (fail : Str → Bool) :
    (∀ (repl : Str) (filt : Bool) (vis : Rec → Bool) (s : State),
      applyOp fail (Op.findReplace [] repl filt vis) s = s) ∧
    (∀ (find repl : Str) (filt : Bool) (vis : Rec → Bool) (s : State) (i : Nat),
      find ≠ [] →
      ((applyOp fail (Op.findReplace find repl filt vis) s).recs.get? i
        = (s.recs.get? i).map (fun r =>
            if filt && !(vis r) then r
            else if occurs find (joinTags s.sep r.tags) then
              { r with tags := (splitOnStr s.sep (replaceAll find repl (joinTags s.sep r.tags))) }
            else r)) ∧
      (i ∈ stepChanged (findReplaceStep find repl filt vis) s.sep s.recs ↔
        ∃ r, s.recs.get? i = some r ∧
          ((!(filt && !(vis r))) && occurs find (joinTags s.sep r.tags)) = true)) ∧
    (tagsOf (applyOp noFail
        (Op.findReplace "cat".toList "dog".toList false allVis) catState)
      = [["a dog".toList, "dogfish".toList]]) := by
  refine ⟨?_, ?_, ?_⟩
  · intro repl filt vis s
    rfl
  · intro find repl filt vis s i hfind
    have hne : find.isEmpty = false := by
      cases find with
      | nil => exact absurd rfl hfind
      | cons c cs => rfl
    constructor
    · rw [applyOp_recs]
      simp only [opRecs, hne, Bool.false_eq_true, if_false, stepRecs,
        List.get?_map]
      cases hr : s.recs.get? i with
      | none => rfl
      | some r =>
        simp only [Option.map_some']
        congr 1
        unfold findReplaceStep
        dsimp only
        cases hf : filt <;> cases hv : vis r <;>
          cases h2 : occurs find (joinTags s.sep r.tags) <;>
          simp [hf, hv, h2]
    · rw [mem_stepChanged]
      exact exists_congr fun r => and_congr_right fun _ => by
        rw [findReplaceStep_flag]
  · decide

/-- Witness for C9's non-empty-find clause at the spec's example record. -/
theorem c9_witness :
    ((applyOp noFail (Op.findReplace "cat".toList "dog".toList false allVis)
        catState).recs.get? 0
      = (catState.recs.get? 0).map (fun r =>
          if false && !(allVis r) then r
          else if occurs "cat".toList (joinTags catState.sep r.tags) then
            { r with tags := (splitOnStr catState.sep (replaceAll "cat".toList "dog".toList (joinTags catState.sep r.tags))) }
          else r)) ∧
    (0 ∈ stepChanged (findReplaceStep "cat".toList "dog".toList false allVis)
        catState.sep catState.recs ↔
      ∃ r, catState.recs.get? 0 = some r ∧
        ((!(false && !(allVis r))) &&
          occurs "cat".toList (joinTags catState.sep r.tags)) = true) :=
  (c9_find_replace noFail).2.1 "cat".toList "dog".toList false allVis catState 0
    (by decide)

/-! ## Claim C2: deep copies versus reference captures -/

/-- C2 (amended): `add_to_undo_stack` does push a deep copy — the pushed
item's cell addresses are all freshly allocated, disjoint from every live
record's tag-list cell; but the snapshot `restore_history_tags` pushes onto
the destination stack is a reference capture of the live tag-list cells
(`tags = [image.tags for image in self.images]`), with no copy. -/
theorem c2_snapshot_aliasing (s : HState) (name : Str) (conf : Bool)
    (href : ∀ r ∈ s.refs, r < s.heap.length) :
    (∀ item, ((addToUndoStackH name conf s).undoS).getLast? = some item →
      ∀ a ∈ item.addrs, ∀ rf ∈ (addToUndoStackH name conf s).refs, a ≠ rf) ∧
    (∀ (us : List HItem) (item : HItem), s.undoS = us ++ [item] →
      (restoreHistoryH true true s).redoS
        = s.redoS ++ [⟨item.name, s.refs, item.confirm⟩]) := by
  constructor
  · intro item hitem a ha rf hrf
    have hpush : ((addToUndoStackH name conf s).undoS).getLast?
        = some ⟨name, (List.range s.refs.length).map (fun k => k + s.heap.length), conf⟩ :=
      pushCap_getLast? s.undoS _
    rw [hpush] at hitem
    injection hitem with hitem
    subst hitem
    simp only [List.mem_map, List.mem_range] at ha
    obtain ⟨k, _, hk⟩ := ha
    have hlt : rf < s.heap.length := href rf hrf
    omega
  · intro us item hstack
    have hlast : s.undoS.getLast? = some item := by
      rw [hstack]
      exact List.getLast?_concat _
    simp [restoreHistoryH, hlast]

/-- The concrete aliasing trace: a two-record catalog, an in-place sort, an
approved undo, an approved redo, then an `add_tags` on the record the
undo/redo left unchanged. -/
def c2s0 : HState :=
  { refs := [0, 1]
    undoS := []
    redoS := []
    heap := [[['b'], ['a']], [['x']]] }

def c2s1 : HState := sortAlphaH false c2s0

def c2s2 : HState := restoreHistoryH true true c2s1

def c2s3 : HState := restoreHistoryH false true c2s2

def c2s4 : HState := addTagsH [['y']] [1] c2s3

/-- Counterexample for C2 as stated: the item the redo pushed onto the undo
stack is still there after `add_tags`, with the same cell addresses, yet the
snapshot value it stores for record 1 changed from `[x]` to `[x, y]` when
`add_tags` mutated that record's tag list in place — the pushed snapshot was
a reference capture, not a deep copy. -/
theorem c2_counterexample :
    c2s4.undoS.get? 0 = c2s3.undoS.get? 0 ∧
    (c2s3.undoS.get? 0).map (fun it => heapVal c2s3.heap (it.addrs.getD 1 0))
      = some [['x']] ∧
    (c2s4.undoS.get? 0).map (fun it => heapVal c2s4.heap (it.addrs.getD 1 0))
      = some [['x'], ['y']] := by
  decide

/-- Witness for C2 (amended) at a concrete one-record heap state. -/
theorem c2_witness :
    (∀ item, ((addToUndoStackH ['n'] true
        ⟨[0], [⟨['m'], [0], true⟩], [], [[['a']]]⟩).undoS).getLast? = some item →
      ∀ a ∈ item.addrs, ∀ rf ∈ (addToUndoStackH ['n'] true
        ⟨[0], [⟨['m'], [0], true⟩], [], [[['a']]]⟩).refs, a ≠ rf) ∧
    (restoreHistoryH true true
        (⟨[0], [⟨['m'], [0], true⟩], [], [[['a']]]⟩ : HState)).redoS
      = [] ++ [⟨['m'], [0], true⟩] :=
  ⟨(c2_snapshot_aliasing ⟨[0], [⟨['m'], [0], true⟩], [], [[['a']]]⟩ ['n'] true
      (by decide)).1,
   (c2_snapshot_aliasing ⟨[0], [⟨['m'], [0], true⟩], [], [[['a']]]⟩ ['n'] true
      (by decide)).2 [] ⟨['m'], [0], true⟩ rfl⟩

section SanityChecks

example : pushCap ([] : List Nat) 3 = [3] := by decide
example : joinTags ", ".toList ["a".toList, "b".toList] = "a, b".toList := by decide
example : notifOf [2, 5, 9] = [(2, 9)] := by decide
example : occurs "cat".toList "a cat, catfish".toList = true := by decide
example : replaceAll "cat".toList "dog".toList "a cat, catfish".toList
    = "a dog, dogfish".toList := by decide
example : splitOnStr ", ".toList "a dog, dogfish".toList
    = ["a dog".toList, "dogfish".toList] := by decide
example : splitOnStr ",".toList "a,".toList = ["a".toList, "".toList] := by decide
example : stableSort strLe ["b".toList, "a".toList] = ["a".toList, "b".toList] := by
  decide

example : tagsOf (applyOp noFail (.sortAlpha false) demoState) = [[['a'], ['b']]] := by
  decide
example :
    tagsOf (undoN noFail 1 (applyOp noFail (.sortAlpha false) demoState))
      = tagsOf demoState := by decide
example :
    tagsOf (applyOp noFail (.addTags [['c']] [0]) demoState) = [[['b'], ['a'], ['c']]] := by
  decide

end SanityChecks
